import Mathlib

/-!
Verification of the Block core of src/chain/src/block.rs (parity-zcash):
the Block aggregate (header + ordered transaction list), its identity hash
(delegated to the header), its merkle root (over the transaction hashes),
its canonical binary codec, and the hex convenience constructor.

External collaborators (BlockHeader, Transaction, the H256 hash function,
the ser codec, the merkle_root function, the hex codec) are not part of the
given source; where a claim depends on them they are either kept abstract
(function parameters with explicitly stated contracts) or modelled from the
spec, as marked on each definition.
-/

namespace BlockCore

/-- Bytes are modelled as natural numbers; a byte sequence is a list. -/
abbrev Byte := Nat

/-- HashDigest: the external 256-bit digest type (H256 in the source), a
fixed-size byte value with byte-wise equality.  Modelled as a byte list;
the all-zero digest spells out its 32 bytes. -/
abbrev H256 := List Byte

/-- Modelled from the spec: the fixed, documented empty-merkle-root constant,
an all-zero 256-bit digest (32 zero bytes). -/
def zeroH256 : H256 := List.replicate 32 0

/-- Block, from src/chain/src/block.rs lines 8-12: a BlockHeader plus an
ordered list of Transactions.  Header and Transaction are external types,
kept abstract as type parameters. -/
structure Block (Header Tx : Type) where
  block_header : Header
  transactions : List Tx
deriving DecidableEq

/-- Block::new (block.rs lines 25-27): total constructor. -/
def Block.new (Header Tx : Type) (header : Header) (transactions : List Tx) :
    Block Header Tx :=
  { block_header := header, transactions := transactions }

/-- Block::hash (block.rs lines 43-45): returns self.block_header.hash().
The external BlockHeader::hash is the abstract parameter hashHeader. -/
def Block.hash (hashHeader : Header → H256) (b : Block Header Tx) : H256 :=
  hashHeader b.block_header

/-- RepresentH256 for Block (block.rs lines 20-22): fn h256 returns
self.hash(). -/
def Block.h256 (hashHeader : Header → H256) (b : Block Header Tx) : H256 :=
  Block.hash hashHeader b

/-- Modelled from the spec: one level of the merkle fold (the merkle_root
collaborator is outside the given source).  Nodes are combined pairwise in
order; a level with an odd node count duplicates its last node to pair it
with itself.  The combine parameter models H(left ++ right) with H the
domain hash, treated as an external mixing function. -/
def merkleStep (comb : H256 → H256 → H256) : List H256 → List H256
  | [] => []
  | [a] => [comb a a]
  | a :: b :: rest => comb a b :: merkleStep comb rest

/-- Helper: one merkle level has ceil(n/2) nodes. -/
theorem merkleStep_length (comb : H256 → H256 → H256) :
    ∀ l : List H256, (merkleStep comb l).length = (l.length + 1) / 2
  | [] => by simp [merkleStep]
  | [a] => by simp [merkleStep]
  | a :: b :: rest => by
      simp [merkleStep, merkleStep_length comb rest]
      omega

/-- Modelled from the spec: merkle_root folds an ordered leaf sequence into
one digest.  Zero leaves give the fixed all-zero constant; one leaf is the
root verbatim; otherwise levels are folded bottom-up until one node
remains. -/
def merkle_root (comb : H256 → H256 → H256) : List H256 → H256
  | [] => zeroH256
  | [a] => a
  | a :: b :: rest => merkle_root comb (merkleStep comb (a :: b :: rest))
termination_by l => l.length
decreasing_by
  simp [merkleStep, merkleStep_length comb rest]
  omega

/-- Block::merkle_root (block.rs lines 30-33): map Transaction::hash over
the transactions, then apply the external merkle_root.  Transaction::hash
is the abstract parameter txHash. -/
def Block.merkleRoot (comb : H256 → H256 → H256) (txHash : Tx → H256)
    (b : Block Header Tx) : H256 :=
  merkle_root comb (b.transactions.map txHash)

/-- Codec: the external Encodable/Decodable contract of §6 — encode to
bytes, decode a prefix of a byte stream returning the value and the
unconsumed rest (None on failure).  BlockHeader, Transaction and the
transaction-count varint each supply one such codec. -/
structure Codec (α : Type) where
  enc : α → List Byte
  dec : List Byte → Option (α × List Byte)

/-- RoundTrip: a codec decodes its own encodings, consuming exactly the
bytes it produced. -/
def Codec.RoundTrip (c : Codec α) : Prop :=
  ∀ (a : α) (rest : List Byte), c.dec (c.enc a ++ rest) = some (a, rest)

/-- Canonical: a successful decode proves the consumed prefix was exactly
the value's encoding (canonical encoding, §6). -/
def Codec.Canonical (c : Codec α) : Prop :=
  ∀ (s : List Byte) (a : α) (rest : List Byte),
    c.dec s = some (a, rest) → c.enc a ++ rest = s

/-- Modelled from the spec: the wire format of §6 — block_bytes :=
header_bytes ++ tx_count_varint ++ tx_bytes*.  The derived Serializable of
block.rs serializes the fields in order: header, then the length-prefixed
transaction list. -/
def Block.encode (ch : Codec Header) (ct : Codec Tx) (cn : Codec Nat)
    (b : Block Header Tx) : List Byte :=
  ch.enc b.block_header ++ cn.enc b.transactions.length ++
    (b.transactions.map ct.enc).flatten

/-- Helper for decoding: read exactly n consecutive transactions. -/
def decodeTxs (ct : Codec Tx) : Nat → List Byte → Option (List Tx × List Byte)
  | 0, s => some ([], s)
  | n + 1, s =>
    match ct.dec s with
    | none => none
    | some (t, s1) =>
      match decodeTxs ct n s1 with
      | none => none
      | some (ts, s2) => some (t :: ts, s2)

/-- Modelled from the spec: the derived Deserializable of block.rs — read a
header, then a transaction count, then that many transactions, failing if
any sub-decode fails; trailing bytes are returned, not rejected. -/
def Block.decode (ch : Codec Header) (ct : Codec Tx) (cn : Codec Nat)
    (s : List Byte) : Option (Block Header Tx × List Byte) :=
  match ch.dec s with
  | none => none
  | some (h, s1) =>
    match cn.dec s1 with
    | none => none
    | some (n, s2) =>
      match decodeTxs ct n s2 with
      | none => none
      | some (ts, s3) => some ({ block_header := h, transactions := ts }, s3)

/-- Modelled from the spec: value of one hex digit (the hex codec is the
external FromHex collaborator, §6: fails on non-hex-digit input). -/
def hexDigitVal (c : Char) : Option Nat :=
  if '0' ≤ c ∧ c ≤ '9' then some (c.toNat - '0'.toNat)
  else if 'a' ≤ c ∧ c ≤ 'f' then some (c.toNat - 'a'.toNat + 10)
  else if 'A' ≤ c ∧ c ≤ 'F' then some (c.toNat - 'A'.toNat + 10)
  else none

/-- Modelled from the spec: hex characters to bytes, two digits per byte;
fails on a non-hex digit or an odd number of digits. -/
def fromHexChars : List Char → Option (List Byte)
  | [] => some []
  | [_] => none
  | c1 :: c2 :: rest =>
    match hexDigitVal c1, hexDigitVal c2, fromHexChars rest with
    | some hi, some lo, some bs => some ((hi * 16 + lo) :: bs)
    | _, _, _ => none

/-- Modelled from the spec: the hex codec on strings. -/
def fromHex (s : String) : Option (List Byte) :=
  fromHexChars s.data

/-- Embedding of impl From of a static str for Block (block.rs lines
14-18): deserialize(s.from_hex().unwrap()).unwrap().  Each unwrap aborts
the process on failure; an abort (panic) is modelled as none, so a some
result is the only non-crashing outcome. -/
def blockFromStaticStr (ch : Codec Header) (ct : Codec Tx) (cn : Codec Nat)
    (s : String) : Option (Block Header Tx) :=
  match fromHex s with
  | none => none
  | some bytes =>
    match Block.decode ch ct cn bytes with
    | none => none
    | some (b, _) => some b

/-- Sample codec instantiating the external contracts in witnesses: a value
is one byte. -/
def unitByteCodec : Codec Nat :=
  { enc := fun n => [n]
    dec := fun s =>
      match s with
      | [] => none
      | x :: r => some (x, r) }

/-- Helper: the sample codec round-trips. -/
theorem unitByteCodec_roundTrip : unitByteCodec.RoundTrip := by
  intro a rest
  simp [unitByteCodec]

/-- Helper: the sample codec is canonical. -/
theorem unitByteCodec_canonical : unitByteCodec.Canonical := by
  intro s a rest h
  cases s with
  | nil => simp [unitByteCodec] at h
  | cons x r =>
    simp [unitByteCodec] at h
    simp [unitByteCodec, h.1, h.2]

/-- Sample combine function instantiating the external mixing function in
witnesses: length-prefixed concatenation, which is injective in the pair
of arguments. -/
def combSample (a b : H256) : H256 :=
  a.length :: (a ++ b)

/-- Helper: the sample combine function is injective in its argument
pair. -/
theorem combSample_injective2 : Function.Injective2 combSample := by
  intro a b a' b' h
  simp [combSample] at h
  obtain ⟨hl, happ⟩ := h
  obtain ⟨h1, h2⟩ := List.append_inj happ hl
  exact ⟨h1, h2⟩

/-- Helper: appending one node to an even-length level appends its
self-pairing to the folded level. -/
theorem merkleStep_append_even (comb : H256 → H256 → H256) :
    ∀ l : List H256, l.length % 2 = 0 → ∀ a : H256,
      merkleStep comb (l ++ [a]) = merkleStep comb l ++ [comb a a]
  | [] => by
      intro _ a
      simp [merkleStep]
  | [x] => by
      intro h
      simp at h
  | x :: y :: rest => by
      intro h a
      simp only [List.length_cons] at h
      simp only [List.cons_append, merkleStep, List.cons.injEq, true_and]
      exact merkleStep_append_even comb rest (by omega) a

/-- Helper: unfolding of the merkle fold on a two-or-more-element level. -/
theorem merkle_root_cons2 (comb : H256 → H256 → H256) (a b : H256)
    (r : List H256) :
    merkle_root comb (a :: b :: r) =
      merkle_root comb (merkleStep comb (a :: b :: r)) := by
  conv_lhs => rw [merkle_root]

/-- Helper: with an argument-pair-injective combine function, one merkle
level is injective on levels of equal node count. -/
theorem merkleStep_inj (comb : H256 → H256 → H256)
    (hcomb : Function.Injective2 comb) :
    ∀ l1 l2 : List H256, l1.length = l2.length →
      merkleStep comb l1 = merkleStep comb l2 → l1 = l2
  | [], [] => fun _ _ => rfl
  | [], _ :: _ => by
      intro hlen _
      simp only [List.length_cons, List.length_nil] at hlen
      omega
  | _ :: _, [] => by
      intro hlen _
      simp only [List.length_cons, List.length_nil] at hlen
      omega
  | [a], [b] => by
      intro _ h
      simp only [merkleStep, List.cons.injEq, and_true] at h
      simp [(hcomb h).1]
  | [a], _ :: _ :: _ => by
      intro hlen _
      simp only [List.length_cons, List.length_nil] at hlen
      omega
  | _ :: _ :: _, [b] => by
      intro hlen _
      simp only [List.length_cons, List.length_nil] at hlen
      omega
  | a :: b :: r, a' :: b' :: r' => by
      intro hlen h
      simp only [merkleStep, List.cons.injEq] at h
      obtain ⟨hab, hr⟩ := h
      obtain ⟨ha, hb⟩ := hcomb hab
      simp only [List.length_cons] at hlen
      have hrest := merkleStep_inj comb hcomb r r' (by omega) hr
      simp [ha, hb, hrest]

/-- Helper: with an argument-pair-injective combine function, the merkle
fold is injective on leaf sequences of equal length — two equal-length
leaf sequences with the same root are the same sequence. -/
theorem merkle_root_inj (comb : H256 → H256 → H256)
    (hcomb : Function.Injective2 comb) :
    ∀ l1 l2 : List H256, l1.length = l2.length →
      merkle_root comb l1 = merkle_root comb l2 → l1 = l2
  | [], [] => fun _ _ => rfl
  | [], _ :: _ => by
      intro hlen _
      simp only [List.length_cons, List.length_nil] at hlen
      omega
  | _ :: _, [] => by
      intro hlen _
      simp only [List.length_cons, List.length_nil] at hlen
      omega
  | [a], [b] => by
      intro _ h
      simp only [merkle_root] at h
      simp [h]
  | [a], _ :: _ :: _ => by
      intro hlen _
      simp only [List.length_cons, List.length_nil] at hlen
      omega
  | _ :: _ :: _, [b] => by
      intro hlen _
      simp only [List.length_cons, List.length_nil] at hlen
      omega
  | a :: b :: r, a' :: b' :: r' => by
      intro hlen h
      simp only [List.length_cons] at hlen
      rw [merkle_root_cons2 comb a b r, merkle_root_cons2 comb a' b' r'] at h
      have hsl : (merkleStep comb (a :: b :: r)).length =
          (merkleStep comb (a' :: b' :: r')).length := by
        simp only [merkleStep_length, List.length_cons]
        omega
      have hstep := merkle_root_inj comb hcomb
        (merkleStep comb (a :: b :: r)) (merkleStep comb (a' :: b' :: r'))
        hsl h
      exact merkleStep_inj comb hcomb _ _
        (by simp only [List.length_cons]; omega) hstep
termination_by l1 _ => l1.length
decreasing_by
  simp only [merkleStep_length, List.length_cons]
  omega

end BlockCore

namespace BlockCore

/-- C2: Block::hash is the header's hash and ignores the transaction list —
two blocks with the same header but arbitrary (permuted or replaced)
transaction lists hash identically. -/
theorem block_hash_is_header_hash (Header Tx : Type)
    (hashHeader : Header → H256) (h : Header) (txs txs' : List Tx) :
    Block.hash hashHeader (Block.mk h txs) = hashHeader h ∧
    Block.hash hashHeader (Block.mk h txs) =
      Block.hash hashHeader (Block.mk h txs') :=
  ⟨rfl, rfl⟩

/-- C10: the RepresentH256 capability agrees with block identity — h256
returns Block::hash, which is the header's hash. -/
theorem block_h256_eq_hash (Header Tx : Type) (hashHeader : Header → H256)
    (b : Block Header Tx) :
    Block.h256 hashHeader b = Block.hash hashHeader b ∧
    Block.h256 hashHeader b = hashHeader b.block_header :=
  ⟨rfl, rfl⟩

/-- C3: Block::merkle_root is exactly the merkle fold of the ordered
transaction-hash list, and depends on nothing else: any two blocks (even
over different header and transaction types) with equal transaction-hash
sequences have equal roots. -/
theorem merkle_root_function_of_tx_hashes
    (Header Tx Header' Tx' : Type) (comb : H256 → H256 → H256)
    (th : Tx → H256) (th' : Tx' → H256)
    (b1 : Block Header Tx) (b2 : Block Header' Tx')
    (hmap : b1.transactions.map th = b2.transactions.map th') :
    Block.merkleRoot comb th b1 = merkle_root comb (b1.transactions.map th) ∧
    Block.merkleRoot comb th b1 = Block.merkleRoot comb th' b2 := by
  constructor
  · rfl
  · simp [Block.merkleRoot, hmap]

theorem merkle_root_function_of_tx_hashes_witness :
    List.map (fun t => [t]) ([1, 2] : List Nat) =
      List.map (fun t => [t]) ([1, 2] : List Nat) ∧
    Block.merkleRoot combSample (fun t => [t]) (Block.mk (0 : Nat) [1, 2]) =
      Block.merkleRoot combSample (fun t => [t]) (Block.mk (5 : Nat) [1, 2]) :=
  ⟨rfl,
    (merkle_root_function_of_tx_hashes Nat Nat Nat Nat combSample
      (fun t => [t]) (fun t => [t]) (Block.mk 0 [1, 2]) (Block.mk 5 [1, 2])
      rfl).2⟩

/-- C6: a block with exactly one transaction has that transaction's hash as
its merkle root, verbatim. -/
theorem merkle_root_single_leaf (Header Tx : Type)
    (comb : H256 → H256 → H256) (th : Tx → H256) (b : Block Header Tx)
    (t : Tx) (h : b.transactions = [t]) :
    Block.merkleRoot comb th b = th t := by
  simp [Block.merkleRoot, h, merkle_root]

theorem merkle_root_single_leaf_witness :
    (Block.mk (0 : Nat) ([3] : List Nat)).transactions = [3] ∧
    Block.merkleRoot combSample (fun t => [t]) (Block.mk (0 : Nat) [3]) =
      [3] :=
  ⟨rfl,
    merkle_root_single_leaf Nat Nat combSample (fun t => [t])
      (Block.mk 0 [3]) 3 rfl⟩

/-- C8: a block with an empty transaction list has the fixed all-zero
256-bit digest as its merkle root, and every empty-transaction block gets
that same constant. -/
theorem merkle_root_empty_zero (Header Tx : Type)
    (comb : H256 → H256 → H256) (th : Tx → H256) (b : Block Header Tx)
    (h : b.transactions = []) :
    Block.merkleRoot comb th b = zeroH256 ∧
    Block.merkleRoot comb th b = List.replicate 32 0 ∧
    (∀ b' : Block Header Tx, b'.transactions = [] →
      Block.merkleRoot comb th b = Block.merkleRoot comb th b') := by
  refine ⟨?_, ?_, ?_⟩
  · simp [Block.merkleRoot, h, merkle_root]
  · simp [Block.merkleRoot, h, merkle_root, zeroH256]
  · intro b' h'
    simp [Block.merkleRoot, h, h']

theorem merkle_root_empty_zero_witness :
    (Block.mk (7 : Nat) ([] : List Nat)).transactions = [] ∧
    Block.merkleRoot combSample (fun t => [t]) (Block.mk (7 : Nat) []) =
      zeroH256 :=
  ⟨rfl,
    (merkle_root_empty_zero Nat Nat combSample (fun t => [t])
      (Block.mk 7 []) rfl).1⟩

/-- C7: the 3-leaf root pairs (a,b), duplicates c into (c,c), and combines
the two results; in general a level is one merkleStep (the fold recursion
for two or more leaves), a level has ceil(count/2) nodes, and a level with
an odd node count duplicates its last node. -/
theorem merkle_root_odd_duplication (comb : H256 → H256 → H256) :
    (∀ a b c : H256,
      merkle_root comb [a, b, c] = comb (comb a b) (comb c c)) ∧
    (∀ (a b : H256) (rest : List H256),
      merkle_root comb (a :: b :: rest) =
        merkle_root comb (merkleStep comb (a :: b :: rest))) ∧
    (∀ l : List H256, (merkleStep comb l).length = (l.length + 1) / 2) ∧
    (∀ (l : List H256) (a : H256), l.length % 2 = 0 →
      merkleStep comb (l ++ [a]) = merkleStep comb l ++ [comb a a]) := by
  refine ⟨?_, ?_, merkleStep_length comb,
    fun l a hl => merkleStep_append_even comb l hl a⟩
  · intro a b c
    simp [merkle_root, merkleStep]
  · intro a b rest
    conv_lhs => rw [merkle_root]

theorem merkle_root_odd_duplication_witness :
    ([[1], [2]] : List H256).length % 2 = 0 ∧
    merkle_root combSample [[1], [2], [3]] =
      combSample (combSample [1] [2]) (combSample [3] [3]) ∧
    merkleStep combSample ([[1], [2]] ++ [[3]]) =
      merkleStep combSample [[1], [2]] ++ [combSample [3] [3]] :=
  ⟨by decide,
    (merkle_root_odd_duplication combSample).1 [1] [2] [3],
    (merkle_root_odd_duplication combSample).2.2.2 [[1], [2]] [3]
      (by decide)⟩

/-- C5 counterexample: reordering transactions with identical hashes does
not change the merkle root.  The block [0, 1, 2] (transaction hashes [0],
[0], [1]) contains two distinct-hash transactions; swapping the two
identical-hash transactions 0 and 1 is a non-identity reordering, yet the
root is unchanged, because the transaction-hash sequence is unchanged. -/
theorem merkle_root_reorder_identical_hashes_cex :
    (fun t => if t = 2 then ([1] : H256) else [0]) 0 ≠
      (fun t => if t = 2 then ([1] : H256) else [0]) 2 ∧
    ([0, 1, 2] : List Nat) ≠ [1, 0, 2] ∧
    Block.merkleRoot combSample (fun t => if t = 2 then ([1] : H256) else [0])
        (Block.mk (0 : Nat) [0, 1, 2]) =
      Block.merkleRoot combSample
        (fun t => if t = 2 then ([1] : H256) else [0])
        (Block.mk (0 : Nat) [1, 0, 2]) := by
  refine ⟨by decide, by decide, ?_⟩
  have hmap : List.map (fun t => if t = 2 then ([1] : H256) else [0])
      ([0, 1, 2] : List Nat) =
      List.map (fun t => if t = 2 then ([1] : H256) else [0])
        ([1, 0, 2] : List Nat) := by decide
  simp [Block.merkleRoot, hmap]

/-- C5 amended: order sensitivity holds exactly through the hash sequence.
With an argument-pair-injective combine function, every reordering
(permutation) of a block's transactions that changes the sequence of
transaction hashes — in particular every non-identity reordering of
distinct-hash transactions — changes the merkle root; and any reordering
leaving the transaction-hash sequence unchanged — in particular any
reordering of identical-hash transactions, the degenerate case — leaves
the root unchanged. -/
theorem merkle_root_order_sensitivity (Header Tx : Type)
    (comb : H256 → H256 → H256) (hcomb : Function.Injective2 comb)
    (th : Tx → H256) :
    (∀ b b' : Block Header Tx,
      b.transactions.Perm b'.transactions →
      b.transactions.map th ≠ b'.transactions.map th →
      Block.merkleRoot comb th b ≠ Block.merkleRoot comb th b') ∧
    (∀ b b' : Block Header Tx,
      b.transactions.map th = b'.transactions.map th →
      Block.merkleRoot comb th b = Block.merkleRoot comb th b') := by
  constructor
  · intro b b' hperm hne heq
    apply hne
    have hlen : (b.transactions.map th).length =
        (b'.transactions.map th).length := by
      simp [hperm.length_eq]
    exact merkle_root_inj comb hcomb _ _ hlen heq
  · intro b b' hmap
    simp [Block.merkleRoot, hmap]

/-- Helper: decodeTxs decodes a concatenation of encodings back to the
original transaction list, leaving the rest untouched. -/
theorem decodeTxs_roundTrip (ct : Codec Tx) (hct : ct.RoundTrip) :
    ∀ (ts : List Tx) (rest : List Byte),
      decodeTxs ct ts.length ((ts.map ct.enc).flatten ++ rest) =
        some (ts, rest) := by
  intro ts
  induction ts with
  | nil =>
      intro rest
      simp [decodeTxs]
  | cons t ts ih =>
      intro rest
      have h1 : ct.dec (ct.enc t ++ ((ts.map ct.enc).flatten ++ rest)) =
          some (t, (ts.map ct.enc).flatten ++ rest) := hct t _
      simp [decodeTxs, h1, ih]

/-- Helper: a successful decodeTxs read exactly the concatenated encodings
of the transactions it returned, as many as requested. -/
theorem decodeTxs_canonical (ct : Codec Tx) (hct : ct.Canonical) :
    ∀ (n : Nat) (s : List Byte) (ts : List Tx) (rest : List Byte),
      decodeTxs ct n s = some (ts, rest) →
      ts.length = n ∧ (ts.map ct.enc).flatten ++ rest = s := by
  intro n
  induction n with
  | zero =>
      intro s ts rest h
      simp [decodeTxs] at h
      simp [h.1, h.2]
  | succ n ih =>
      intro s ts rest h
      simp only [decodeTxs] at h
      split at h
      · exact absurd h (by simp)
      · rename_i t s1 heq1
        split at h
        · exact absurd h (by simp)
        · rename_i ts' s2 heq2
          obtain ⟨hts, hrest⟩ : t :: ts' = ts ∧ s2 = rest := by
            simpa using h
          obtain ⟨hlen, hflat⟩ := ih s1 ts' s2 heq2
          subst hts
          subst hrest
          refine ⟨by simp [hlen], ?_⟩
          have henc := hct s t s1 heq1
          simp only [List.map_cons, List.flatten_cons, List.append_assoc,
            hflat]
          exact henc

/-- C1: with the external header, transaction and count codecs meeting
their §6 contracts (round-tripping and canonical), the Block codec is
mutually inverse: decoding an encoding returns the block (consuming
exactly its bytes), and re-encoding a decoded block reproduces the
consumed bytes exactly. -/
theorem block_encode_decode_roundtrip (Header Tx : Type)
    (ch : Codec Header) (ct : Codec Tx) (cn : Codec Nat)
    (hchR : ch.RoundTrip) (hctR : ct.RoundTrip) (hcnR : cn.RoundTrip)
    (hchC : ch.Canonical) (hctC : ct.Canonical) (hcnC : cn.Canonical) :
    (∀ (b : Block Header Tx) (rest : List Byte),
      Block.decode ch ct cn (Block.encode ch ct cn b ++ rest) =
        some (b, rest)) ∧
    (∀ (s : List Byte) (b : Block Header Tx) (rest : List Byte),
      Block.decode ch ct cn s = some (b, rest) →
      Block.encode ch ct cn b ++ rest = s) := by
  constructor
  · intro b rest
    obtain ⟨hd, ts⟩ := b
    have h1 : ch.dec (ch.enc hd ++
        (cn.enc ts.length ++ ((ts.map ct.enc).flatten ++ rest))) =
        some (hd, cn.enc ts.length ++ ((ts.map ct.enc).flatten ++ rest)) :=
      hchR hd _
    have h2 : cn.dec (cn.enc ts.length ++ ((ts.map ct.enc).flatten ++ rest)) =
        some (ts.length, (ts.map ct.enc).flatten ++ rest) := hcnR ts.length _
    simp [Block.encode, Block.decode, h1, h2,
      decodeTxs_roundTrip ct hctR]
  · intro s b rest h
    simp only [Block.decode] at h
    split at h
    · exact absurd h (by simp)
    · rename_i hd s1 heq1
      split at h
      · exact absurd h (by simp)
      · rename_i n s2 heq2
        split at h
        · exact absurd h (by simp)
        · rename_i ts s3 heq3
          obtain ⟨hb, hrest⟩ :
              ({ block_header := hd, transactions := ts } :
                Block Header Tx) = b ∧ s3 = rest := by
            simpa using h
          obtain ⟨hlen, hflat⟩ := decodeTxs_canonical ct hctC n s2 ts s3 heq3
          subst hb
          subst hrest
          simp only [Block.encode, hlen, List.append_assoc, hflat]
          rw [hcnC s1 n s2 heq2]
          exact hchC s hd s1 heq1

theorem block_encode_decode_roundtrip_witness :
    Codec.RoundTrip unitByteCodec ∧ Codec.Canonical unitByteCodec ∧
    Block.decode unitByteCodec unitByteCodec unitByteCodec
        (Block.encode unitByteCodec unitByteCodec unitByteCodec
          (Block.mk (7 : Nat) ([1, 2] : List Nat)) ++ []) =
      some (Block.mk 7 [1, 2], []) :=
  ⟨unitByteCodec_roundTrip, unitByteCodec_canonical,
    (block_encode_decode_roundtrip Nat Nat unitByteCodec unitByteCodec
      unitByteCodec unitByteCodec_roundTrip unitByteCodec_roundTrip
      unitByteCodec_roundTrip unitByteCodec_canonical
      unitByteCodec_canonical unitByteCodec_canonical).1
      (Block.mk 7 [1, 2]) []⟩

/-- C4 counterexample: on the malformed hex input made of two non-hex
characters, the hex convenience constructor panics (both unwraps model the
source's process-aborting unwrap as none); it does not surface a
recoverable error value to the caller. -/
theorem block_from_str_malformed_hex_cex :
    fromHex (String.mk [Char.ofNat 122, Char.ofNat 122]) = none ∧
    blockFromStaticStr unitByteCodec unitByteCodec unitByteCodec
        (String.mk [Char.ofNat 122, Char.ofNat 122]) =
      (none : Option (Block Nat Nat)) := by
  constructor
  · decide
  · simp [blockFromStaticStr]
    decide

/-- C4 amended: the hex convenience constructor crashes rather than
returning an error: a failed hex decode or a failed block decode makes the
whole call panic (modelled as none), and those are exactly the panic
cases. -/
theorem block_from_str_unwrap_panic (Header Tx : Type)
    (ch : Codec Header) (ct : Codec Tx) (cn : Codec Nat) (s : String) :
    blockFromStaticStr ch ct cn s = none ↔
      (fromHex s = none ∨
        ∃ bytes, fromHex s = some bytes ∧
          Block.decode ch ct cn bytes =
            (none : Option (Block Header Tx × List Byte))) := by
  unfold blockFromStaticStr
  cases hfh : fromHex s with
  | none => simp
  | some bytes =>
    cases hbd : Block.decode ch ct cn bytes with
    | none => simp [hbd]
    | some p => simp [hbd]

theorem merkle_root_order_sensitivity_witness :
    ([1, 2] : List Nat).Perm [2, 1] ∧
    List.map (fun t => [t]) ([1, 2] : List Nat) ≠
      List.map (fun t => [t]) ([2, 1] : List Nat) ∧
    Block.merkleRoot combSample (fun t => [t]) (Block.mk (0 : Nat) [1, 2]) ≠
      Block.merkleRoot combSample (fun t => [t])
        (Block.mk (0 : Nat) [2, 1]) :=
  ⟨by decide, by decide,
    (merkle_root_order_sensitivity Nat Nat combSample combSample_injective2
      (fun t => [t])).1 (Block.mk 0 [1, 2]) (Block.mk 0 [2, 1]) (by decide)
      (by decide)⟩

end BlockCore
